import Mathlib

/-!
Verification of `src/adaptiva.c`: an adaptive bit-packed integer array.

The C code packs integers into 32-bit words at a dynamically chosen bit
width (`entropy`), repacking the whole array when a wider value (or the
first negative value) arrives.  This file gives a shallow embedding of the
container: machine words are `Nat` values below `2 ^ 32`, signed C `int`
values are `Int` values interacting with the words through their 32-bit
two's-complement pattern, and the module-level mutable globals of the C
file become an explicit `Adaptiva.State` record threaded through the
operations.
-/

namespace Adaptiva

/-- `BITS_IN_INT` of the source: the word size, 32 bits. -/
def BITS_IN_INT : Nat := 32

/-- `VALS_IN_INT(ent)` of the source: how many `ent`-bit lanes fit a word. -/
def VALS_IN_INT (ent : Nat) : Nat := BITS_IN_INT / ent

/-- The 32-bit pattern of a C `int` value (two's complement). -/
def pat32 (value : Int) : Nat := (value % (2 ^ 32 : Int)).toNat

/-- Bit length of a natural number, with enough structural fuel for any
32-bit quantity; `bitlen x` models `32 - __builtin_clz(x)` for `x ≠ 0`. -/
def bitlenAux : Nat → Nat → Nat
  | 0, _ => 0
  | fuel + 1, x => if x = 0 then 0 else bitlenAux fuel (x / 2) + 1

/-- Bit length of a 32-bit quantity (`bitlen 0 = 0`, `bitlen 513 = 10`). -/
def bitlen (x : Nat) : Nat := bitlenAux 40 x

/-- The branchless absolute-value pattern of `insert`:
`abs_mask = value >> 31; (value + abs_mask) ^ abs_mask`, computed on the
32-bit pattern (`abs_mask` is all ones exactly for negative values). -/
def absPattern (value : Int) : Nat :=
  let m : Nat := if value < 0 then 2 ^ 32 - 1 else 0
  ((pat32 value + m) % 2 ^ 32) ^^^ m

/-- The width selected by `insert` (source lines 57-75):
`value_entropy = 32 - __builtin_clz(((value + abs_mask) ^ abs_mask) | 0x1)`,
plus one for the sign bit of a negative value; widths above
`BITS_IN_INT / 2 = 16` are clamped to `BITS_IN_INT - 1 = 31`. -/
def value_entropy (value : Int) : Nat :=
  let ve0 := bitlen (absPattern value ||| 1)
  let ve1 := if value < 0 then ve0 + 1 else ve0
  if BITS_IN_INT / 2 < ve1 then BITS_IN_INT - 1 else ve1

/-- The `sign_switch` flag of `insert`: set when a negative value arrives
while the container is unsigned, and also whenever the width clamp fires
while the container is unsigned, regardless of the value's sign. -/
def sign_switch (sv : Nat) (value : Int) : Bool :=
  let ve0 := bitlen (absPattern value ||| 1)
  let ve1 := if value < 0 then ve0 + 1 else ve0
  (decide (value < 0) && decide (sv = 0)) ||
    (decide (BITS_IN_INT / 2 < ve1) && decide (sv = 0))

/-- The container state: the C file's module-level globals `entropy`,
`buffer`, `size`, `allocated`, `signed_values`.  Words of `buffer` are
naturals below `2 ^ 32`; `allocated` is in bytes as in the source. -/
structure State where
  entropy : Nat
  buffer : List Nat
  size : Nat
  allocated : Nat
  signed_values : Nat

/-- `init()` of the source.  The single word is obtained from `malloc` and
is never cleared, so its content is unspecified: the parameter `g` is the
arbitrary 32-bit content the allocator happened to return. -/
def init (g : Nat) : State :=
  { entropy := 1
    buffer := [g % 2 ^ 32]
    size := BITS_IN_INT
    allocated := 4
    signed_values := 0 }

/-- `_get(buf, index, entropy)` of the source, with the global
`signed_values` passed explicitly.  The C code loads the word into a
signed `int`, arithmetic-shifts it right by `off * entropy` and masks to
`entropy` bits; since `off * entropy + entropy ≤ 32`, that equals the
logical extraction written here.  The final
`(v ^ sign_mask) - sign_mask` sign-extends the lane when
`signed_values = 1`. -/
def _get (buf : List Nat) (index : Nat) (entropy : Nat) (sv : Nat) : Int :=
  let j := index / VALS_IN_INT entropy
  let off := index % VALS_IN_INT entropy
  let mask := 2 ^ entropy - 1
  let v := (buf.getD j 0 >>> (off * entropy)) &&& mask
  let sign_mask := sv <<< (entropy - 1)
  (Int.ofNat (v ^^^ sign_mask)) - Int.ofNat sign_mask

/-- `_put(buf, index, value, entropy)` of the source: clear the target lane
with `~(mask << (entropy*off))` and OR in `value << (entropy*off)`.  The C
code does NOT mask `value` to `entropy` bits before the OR; the shifted
32-bit pattern of `value` is ORed in whole (truncated at the word width),
exactly as written here. -/
def _put (buf : List Nat) (index : Nat) (value : Int) (entropy : Nat) : List Nat :=
  let j := index / VALS_IN_INT entropy
  let off := index % VALS_IN_INT entropy
  let mask := 2 ^ entropy - 1
  let v := buf.getD j 0
  let v1 := v &&& ((2 ^ 32 - 1) ^^^ (mask <<< (entropy * off)))
  let v2 := v1 ||| ((pat32 value <<< (entropy * off)) % 2 ^ 32)
  buf.set j v2

/-- The repack phase of `insert` (source lines 78-95): when the selected
width exceeds the current entropy or a sign switch is requested,
reallocate `size / VALS_IN_INT(ve) + 1` zeroed words and re-encode every
element `0 .. size-1`, reading at the old width with the old
`signed_values` (the global is updated only after the loop) and writing at
width `ve` — even when `ve` is smaller than the current entropy. -/
def repack (s : State) (ve : Nat) (ss : Bool) : State :=
  if s.entropy < ve ∨ ss = true then
    { entropy := ve
      buffer := (List.range s.size).foldl
        (fun nb i => _put nb i (_get s.buffer i s.entropy s.signed_values) ve)
        (List.replicate (s.size / VALS_IN_INT ve + 1) 0)
      size := s.size
      allocated := 4 * (s.size / VALS_IN_INT ve + 1)
      signed_values := if ss then 1 else s.signed_values }
  else s

/-- The growth phase of `insert` (source lines 97-107): when writing at or
past the current size, allocate `index / VALS_IN_INT(entropy) + 1` words,
zero-fill, copy the old words into the prefix (`memcpy` of the old
`allocated` bytes), and set `size` to the full lane capacity of the new
allocation.  The trailing `take` only matters if the new word count were
below the current one — there the C `memcpy` would overflow the new
buffer; the case never arises, since growth is triggered by
`index ≥ size` and the allocation always covers `size` lanes. -/
def grow (s : State) (index : Nat) : State :=
  if s.size ≤ index then
    { entropy := s.entropy
      buffer := (s.buffer ++
          List.replicate (index / VALS_IN_INT s.entropy + 1 - s.buffer.length) 0).take
        (index / VALS_IN_INT s.entropy + 1)
      size := (index / VALS_IN_INT s.entropy + 1) * VALS_IN_INT s.entropy
      allocated := 4 * (index / VALS_IN_INT s.entropy + 1)
      signed_values := s.signed_values }
  else s

/-- `insert(index, value)` of the source (lines 56-110): width selection,
conditional repack, conditional growth, then the `_put` of the new value. -/
def insert (s : State) (index : Nat) (value : Int) : State :=
  let s2 := grow (repack s (value_entropy value) (sign_switch s.signed_values value)) index
  { s2 with buffer := _put s2.buffer index value s2.entropy }

/-- `get(index)` of the source. -/
def get (s : State) (index : Nat) : Int :=
  _get s.buffer index s.entropy s.signed_values

/-- A whole program run: `init()` followed by a list of `insert` calls.
`g` is the content `malloc` left in the initial word. -/
def runProg (g : Nat) (ops : List (Nat × Int)) : State :=
  ops.foldl (fun s p => insert s p.1 p.2) (init g)

/-- The lane-replication loops of `find` (lines 127-130): the OR into
`pattern` and `high_bit_mask` of `x << (entropy * i)` for `i` below
`VALS_IN_INT`; shifts of the 32-bit pattern truncate at the word width. -/
def orLanes (x : Nat) (e : Nat) : Nat → Nat
  | 0 => 0
  | i + 1 => orLanes x e i ||| ((x <<< (e * i)) % 2 ^ 32)

/-- The per-word confirmation loop of `find` (lines 140-143): scan lanes
`j, j+1, ...` of word `w` (with `fuel` lanes left) and return the first
lane whose masked bits compare equal, as C `int`s, to `value`. -/
def scanLanes (w e mask : Nat) (value : Int) : Nat → Nat → Option Nat
  | 0, _ => none
  | fuel + 1, j =>
    if Int.ofNat ((w >>> (e * j)) &&& mask) = value then some j
    else scanLanes w e mask value fuel (j + 1)

/-- The word loop of `find` (lines 133-145), scanning words `i, i+1, ...`
with `fuel` words left: the SWAR zero-lane filter on `packed ^ pattern`,
then the per-lane confirmation scan of a flagged word. -/
def findAux (buf : List Nat) (e viint mask : Nat) (value : Int)
    (pattern hbm bigm : Nat) : Nat → Nat → Int
  | 0, _ => -1
  | fuel + 1, i =>
    let packed := buf.getD i 0
    let mtch := packed ^^^ pattern
    let flags :=
      ((2 ^ 32 - 1) ^^^ ((((mtch &&& hbm) + hbm) % 2 ^ 32 ||| mtch) ||| hbm)) &&& bigm
    if flags ≠ 0 then
      match scanLanes packed e mask value viint 0 with
      | some j => Int.ofNat (i * viint + j)
      | none => findAux buf e viint mask value pattern hbm bigm fuel (i + 1)
    else findAux buf e viint mask value pattern hbm bigm fuel (i + 1)

/-- `find(value)` of the source (lines 120-148), returning `-1` when the
value is not found.  `big_mask = (~0) >> (32 - viint*entropy)` computes
`~0` as a signed `int` (all ones), so the arithmetic right shift keeps
every bit set: `big_mask` is the all-ones word regardless of the shift,
and the padding bits are in fact not masked off.  The loop runs over
`allocated / sizeof(int)` words — the whole allocation, not only the
words backing `size` elements. -/
def find (s : State) (value : Int) : Int :=
  let e := s.entropy
  let viint := VALS_IN_INT e
  let mask := 2 ^ e - 1
  let pattern := orLanes (pat32 value) e viint
  let hbm := orLanes (mask >>> 1) e viint
  let bigm := 2 ^ 32 - 1
  findAux s.buffer e viint mask value pattern hbm bigm (s.allocated / 4) 0

/-- Reference semantics for `find`: the plain first-match scan over the
same word range (every allocated word), comparing each masked lane, as a
C `int`, with `value` — the "decode every lane and compare" loop the SWAR
filter is meant to speed up. -/
def findSimpleAux (buf : List Nat) (e viint mask : Nat) (value : Int) :
    Nat → Nat → Int
  | 0, _ => -1
  | fuel + 1, i =>
    match scanLanes (buf.getD i 0) e mask value viint 0 with
    | some j => Int.ofNat (i * viint + j)
    | none => findSimpleAux buf e viint mask value fuel (i + 1)

/-- The plain linear-scan search over the allocated words. -/
def findSimple (s : State) (value : Int) : Int :=
  findSimpleAux s.buffer s.entropy (VALS_IN_INT s.entropy) (2 ^ s.entropy - 1)
    value (s.allocated / 4) 0

/-- The raw (unsigned) content of lane `i` of the packed storage: the
`entropy`-bit field that `_get` extracts before sign correction. -/
def rawLane (s : State) (i : Nat) : Nat :=
  (s.buffer.getD (i / VALS_IN_INT s.entropy) 0 >>>
    ((i % VALS_IN_INT s.entropy) * s.entropy)) &&& (2 ^ s.entropy - 1)

/-- Lane `k` of a bare word `w` at width `e`. -/
def laneOf (w e k : Nat) : Nat := (w >>> (e * k)) &&& (2 ^ e - 1)

/-- A word assembled from `m` digits of `e` bits each, digit `j` being
`f j`: the value `Σ_j f j * 2 ^ (e * j)`. -/
def lanes (f : Nat → Nat) (e : Nat) : Nat → Nat
  | 0 => 0
  | m + 1 => lanes f e m + f m * 2 ^ (e * m)

/-- The structural invariant every reachable container state satisfies:
entropy bounds, `allocated` bookkeeping, lane capacity covering `size`,
32-bit words, and a boolean `signed_values`. -/
def Inv (s : State) : Prop :=
  1 ≤ s.entropy ∧ s.entropy ≤ 31 ∧
  s.allocated = 4 * s.buffer.length ∧
  s.size ≤ s.buffer.length * VALS_IN_INT s.entropy ∧
  (∀ w ∈ s.buffer, w < 2 ^ 32) ∧ s.signed_values ≤ 1

theorem laneOf_lt (w e k : Nat) : laneOf w e k < 2 ^ e := by
  unfold laneOf
  rw [Nat.and_pow_two_sub_one_eq_mod]
  exact Nat.mod_lt _ (Nat.two_pow_pos e)

theorem testBit_laneOf (w e k r : Nat) :
    (laneOf w e k).testBit r = (decide (r < e) && w.testBit (e * k + r)) := by
  unfold laneOf
  rw [Nat.testBit_and, Nat.testBit_two_pow_sub_one, Nat.testBit_shiftRight,
    Bool.and_comm]

theorem lanes_lt {f : Nat → Nat} {e m : Nat} (hf : ∀ j, j < m → f j < 2 ^ e) :
    lanes f e m < 2 ^ (e * m) := by
  induction m with
  | zero => simp [lanes]
  | succ m ih =>
    have h1 : lanes f e m < 2 ^ (e * m) := ih fun j hj => hf j (Nat.lt_succ_of_lt hj)
    have h2 : f m < 2 ^ e := hf m (Nat.lt_succ_self m)
    have : lanes f e m + f m * 2 ^ (e * m) < (f m + 1) * 2 ^ (e * m) := by
      rw [Nat.add_mul, Nat.one_mul]
      omega
    calc lanes f e (m + 1) = lanes f e m + f m * 2 ^ (e * m) := rfl
      _ < (f m + 1) * 2 ^ (e * m) := this
      _ ≤ 2 ^ e * 2 ^ (e * m) := Nat.mul_le_mul_right _ h2
      _ = 2 ^ (e + e * m) := by rw [Nat.pow_add]
      _ = 2 ^ (e * (m + 1)) := by congr 1; ring

theorem testBit_lanes {f : Nat → Nat} {e m : Nat} (hf : ∀ j, j < m → f j < 2 ^ e)
    {k r : Nat} (hk : k < m) (hr : r < e) :
    (lanes f e m).testBit (e * k + r) = (f k).testBit r := by
  induction m with
  | zero => omega
  | succ m ih =>
    have hfm : ∀ j, j < m → f j < 2 ^ e := fun j hj => hf j (Nat.lt_succ_of_lt hj)
    have hlt : lanes f e m < 2 ^ (e * m) := lanes_lt hfm
    have hrw : lanes f e (m + 1) = 2 ^ (e * m) * f m + lanes f e m := by
      rw [show lanes f e (m + 1) = lanes f e m + f m * 2 ^ (e * m) from rfl]
      ring
    rw [hrw, Nat.testBit_mul_pow_two_add _ hlt]
    rcases Nat.lt_or_ge k m with hkm | hkm
    · have hstep : e * (k + 1) ≤ e * m := Nat.mul_le_mul_left e hkm
      rw [Nat.mul_succ] at hstep
      have : e * k + r < e * m := by omega
      rw [if_pos this]
      exact ih hfm hkm
    · have hkeq : k = m := by omega
      subst hkeq
      have hge : ¬ (e * k + r < e * k) := by omega
      rw [if_neg hge]
      congr 1
      omega

theorem lanes_congr {f g : Nat → Nat} {e m : Nat} (h : ∀ j, j < m → f j = g j) :
    lanes f e m = lanes g e m := by
  induction m with
  | zero => rfl
  | succ m ih =>
    unfold lanes
    rw [ih fun j hj => h j (Nat.lt_succ_of_lt hj), h m (Nat.lt_succ_self m)]

theorem lanes_add (f g : Nat → Nat) (e m : Nat) :
    lanes (fun j => f j + g j) e m = lanes f e m + lanes g e m := by
  induction m with
  | zero => rfl
  | succ m ih => unfold lanes; rw [ih]; ring

theorem lanes_zero (e : Nat) : ∀ m, lanes (fun _ => 0) e m = 0
  | 0 => rfl
  | m + 1 => by
    rw [show lanes (fun _ => 0) e (m + 1) = lanes (fun _ => 0) e m + 0 * 2 ^ (e * m)
      from rfl, lanes_zero e m]
    simp

theorem lanes_decomp {e m x : Nat} (hx : x < 2 ^ (e * m)) :
    lanes (fun j => laneOf x e j) e m = x := by
  rcases Nat.eq_zero_or_pos e with he | he
  · subst he
    have hx0 : x = 0 := by
      have h := hx
      rw [Nat.zero_mul, Nat.pow_zero] at h
      omega
    subst hx0
    have hcong : ∀ j, j < m → laneOf 0 0 j = 0 := by
      intro j _
      simp [laneOf]
    rw [lanes_congr hcong, lanes_zero]
  · apply Nat.eq_of_testBit_eq
    intro p
    rcases Nat.lt_or_ge p (e * m) with hp | hp
    · have hd : p / e < m := by
        rcases Nat.lt_or_ge (p / e) m with h | h
        · exact h
        · exfalso
          have h1 : e * m ≤ e * (p / e) := Nat.mul_le_mul_left e h
          have h2 : e * (p / e) ≤ p := Nat.mul_div_le p e
          omega
      have hr : p % e < e := Nat.mod_lt _ he
      have hsplit : e * (p / e) + p % e = p := Nat.div_add_mod p e
      rw [← hsplit,
        testBit_lanes (fun j _ => laneOf_lt x e j) hd hr,
        testBit_laneOf, hsplit]
      simp [hr]
    · have h1 : lanes (fun j => laneOf x e j) e m < 2 ^ p :=
        Nat.lt_of_lt_of_le (lanes_lt fun j _ => laneOf_lt x e j)
          (Nat.pow_le_pow_right (by omega) hp)
      have h2 : x < 2 ^ p :=
        Nat.lt_of_lt_of_le hx (Nat.pow_le_pow_right (by omega) hp)
      rw [Nat.testBit_eq_false_of_lt h1, Nat.testBit_eq_false_of_lt h2]

theorem laneOf_lanes {f : Nat → Nat} {e m : Nat} (hf : ∀ j, j < m → f j < 2 ^ e)
    {k : Nat} (hk : k < m) : laneOf (lanes f e m) e k = f k := by
  apply Nat.eq_of_testBit_eq
  intro r
  rw [testBit_laneOf]
  rcases Nat.lt_or_ge r e with hr | hr
  · rw [testBit_lanes hf hk hr]
    simp [hr]
  · have h2 : f k < 2 ^ r :=
      Nat.lt_of_lt_of_le (hf k hk) (Nat.pow_le_pow_right (by omega) hr)
    rw [Nat.testBit_eq_false_of_lt h2]
    simp [Nat.not_lt.mpr hr]

theorem or_eq_add_of_lt {a b n : Nat} (ha : a < 2 ^ n) :
    a ||| b * 2 ^ n = a + b * 2 ^ n := by
  apply Nat.eq_of_testBit_eq
  intro p
  rw [Nat.testBit_or]
  have hsum : a + b * 2 ^ n = 2 ^ n * b + a := by ring
  have hmul : b * 2 ^ n = 2 ^ n * b := by ring
  rw [hsum, hmul, Nat.testBit_mul_pow_two_add _ ha, Nat.testBit_mul_pow_two]
  rcases Nat.lt_or_ge p n with hp | hp
  · simp [hp, Nat.not_le.mpr hp]
  · rw [Nat.testBit_eq_false_of_lt
      (Nat.lt_of_lt_of_le ha (Nat.pow_le_pow_right (by omega) hp))]
    simp [hp, Nat.not_lt.mpr hp]

theorem orLanes_eq_lanes {x e : Nat} (hx : x < 2 ^ e) :
    ∀ {m : Nat}, e * m ≤ 32 → orLanes x e m = lanes (fun _ => x) e m := by
  intro m
  induction m with
  | zero => intro _; rfl
  | succ m ih =>
    intro hem
    rw [Nat.mul_succ] at hem
    have hem' : e * m ≤ 32 := by omega
    have hsh : x <<< (e * m) = x * 2 ^ (e * m) := Nat.shiftLeft_eq x (e * m)
    have hxlt : x * 2 ^ (e * m) < 2 ^ 32 := by
      calc x * 2 ^ (e * m) < 2 ^ e * 2 ^ (e * m) :=
            (Nat.mul_lt_mul_right (Nat.two_pow_pos _)).mpr hx
        _ = 2 ^ (e + e * m) := by rw [← Nat.pow_add]
        _ ≤ 2 ^ 32 := Nat.pow_le_pow_right (by omega) (by omega)
    have hmod : (x <<< (e * m)) % 2 ^ 32 = x * 2 ^ (e * m) := by
      rw [hsh]; exact Nat.mod_eq_of_lt hxlt
    have hlt : lanes (fun _ => x) e m < 2 ^ (e * m) := lanes_lt fun _ _ => hx
    calc orLanes x e (m + 1)
        = orLanes x e m ||| (x <<< (e * m)) % 2 ^ 32 := rfl
      _ = lanes (fun _ => x) e m ||| x * 2 ^ (e * m) := by rw [ih hem', hmod]
      _ = lanes (fun _ => x) e m + x * 2 ^ (e * m) := or_eq_add_of_lt hlt
      _ = lanes (fun _ => x) e (m + 1) := rfl

theorem laneOf_and (x y e k : Nat) :
    laneOf (x &&& y) e k = laneOf x e k &&& laneOf y e k := by
  apply Nat.eq_of_testBit_eq
  intro r
  rw [Nat.testBit_and, testBit_laneOf, testBit_laneOf, testBit_laneOf,
    Nat.testBit_and]
  cases decide (r < e) <;> simp

theorem laneOf_xor (x y e k : Nat) :
    laneOf (x ^^^ y) e k = laneOf x e k ^^^ laneOf y e k := by
  apply Nat.eq_of_testBit_eq
  intro r
  rw [Nat.testBit_xor, testBit_laneOf, testBit_laneOf, testBit_laneOf,
    Nat.testBit_xor]
  cases decide (r < e) <;> simp

theorem half_mask_eq {e : Nat} (he : 0 < e) : (2 ^ e - 1) >>> 1 = 2 ^ (e - 1) - 1 := by
  have h2e : 2 ^ e = 2 * 2 ^ (e - 1) := by
    conv_lhs => rw [show e = (e - 1) + 1 by omega]
    rw [Nat.pow_succ]
    ring
  rw [Nat.shiftRight_one]
  omega

theorem e_mul_viint_le (e : Nat) : e * VALS_IN_INT e ≤ 32 := by
  have h := Nat.div_mul_le_self 32 e
  unfold VALS_IN_INT BITS_IN_INT
  rw [Nat.mul_comm]
  exact h

/-- Completeness of the SWAR zero-lane filter of `find`: when lane `k` of
the XORed word `mtch` is all-zero, the filter word is nonzero, so the word
is handed to the per-lane confirmation scan (the word loop never skips a
word that contains a match). -/
theorem swar_flags_ne_zero {e : Nat} (he : 0 < e)
    {mtch : Nat}
    {k : Nat} (hk : k < VALS_IN_INT e) (hzero : laneOf mtch e k = 0) :
    ((2 ^ 32 - 1) ^^^
        ((((mtch &&& orLanes ((2 ^ e - 1) >>> 1) e (VALS_IN_INT e)) +
            orLanes ((2 ^ e - 1) >>> 1) e (VALS_IN_INT e)) % 2 ^ 32 ||| mtch) |||
          orLanes ((2 ^ e - 1) >>> 1) e (VALS_IN_INT e))) &&& (2 ^ 32 - 1) ≠ 0 := by
  set viint := VALS_IN_INT e with hviint
  set h := 2 ^ (e - 1) - 1 with hh_def
  have h2e : 2 ^ e = 2 * 2 ^ (e - 1) := by
    conv_lhs => rw [show e = (e - 1) + 1 by omega]
    rw [Nat.pow_succ]
    ring
  have hh_lt : h < 2 ^ e := by
    have := Nat.two_pow_pos (e - 1)
    omega
  have hevi : e * viint ≤ 32 := e_mul_viint_le e
  have hevi32 : 2 ^ (e * viint) ≤ 2 ^ 32 := Nat.pow_le_pow_right (by omega) hevi
  have hbmL : orLanes ((2 ^ e - 1) >>> 1) e viint = lanes (fun _ => h) e viint := by
    rw [half_mask_eq he, ← hh_def]
    exact orLanes_eq_lanes hh_lt hevi
  set hbm := lanes (fun _ => h) e viint with hbm_def
  have hbm_lt : hbm < 2 ^ (e * viint) := lanes_lt fun _ _ => hh_lt
  set A := mtch &&& hbm with hA_def
  have hA_le : A ≤ hbm := Nat.and_le_right
  have hA_lt : A < 2 ^ (e * viint) := Nat.lt_of_le_of_lt hA_le hbm_lt
  have hd_eq : ∀ j, j < viint → laneOf A e j = laneOf mtch e j &&& h := by
    intro j hj
    rw [hA_def, laneOf_and, laneOf_lanes (fun _ _ => hh_lt) hj]
  have hd_lt : ∀ j, j < viint → laneOf A e j + h < 2 ^ e := by
    intro j hj
    have h1 : laneOf A e j ≤ h := by
      rw [hd_eq j hj]
      exact Nat.and_le_right
    omega
  have hS_eq : A + hbm = lanes (fun j => laneOf A e j + h) e viint := by
    rw [lanes_add, lanes_decomp hA_lt]
  have hS_lt : A + hbm < 2 ^ 32 := by
    rw [hS_eq]
    exact Nat.lt_of_lt_of_le (lanes_lt hd_lt) hevi32
  have hS_mod : (A + hbm) % 2 ^ 32 = A + hbm := Nat.mod_eq_of_lt hS_lt
  -- the probe bit: the top bit of lane k
  set p := e * k + (e - 1) with hp_def
  have hp32 : p < 32 := by
    have h1 : e * (k + 1) ≤ e * viint := Nat.mul_le_mul_left e hk
    rw [Nat.mul_succ] at h1
    omega
  have hbit_sum : (A + hbm).testBit p = false := by
    rw [hS_eq, hp_def, testBit_lanes hd_lt hk (by omega)]
    have hdk : laneOf A e k = 0 := by
      rw [hd_eq k hk, hzero]
      simp
    rw [hdk, Nat.zero_add, hh_def, Nat.testBit_two_pow_sub_one]
    simp
  have hbit_mtch : mtch.testBit p = false := by
    have h1 := testBit_laneOf mtch e k (e - 1)
    rw [hzero, Nat.zero_testBit] at h1
    have h2 : decide (e - 1 < e) = true := by simp; omega
    rw [h2, Bool.true_and] at h1
    exact h1.symm
  have hbit_hbm : hbm.testBit p = false := by
    rw [hbm_def, hp_def, testBit_lanes (fun _ _ => hh_lt) hk (by omega),
      hh_def, Nat.testBit_two_pow_sub_one]
    simp
  intro h0
  have hbit : (((2 ^ 32 - 1) ^^^
      ((((mtch &&& orLanes ((2 ^ e - 1) >>> 1) e viint) +
          orLanes ((2 ^ e - 1) >>> 1) e viint) % 2 ^ 32 ||| mtch) |||
        orLanes ((2 ^ e - 1) >>> 1) e viint)) &&& (2 ^ 32 - 1)).testBit p = true := by
    rw [hbmL, ← hA_def, hS_mod, Nat.testBit_and, Nat.testBit_xor,
      Nat.testBit_or, Nat.testBit_or, Nat.testBit_two_pow_sub_one,
      hbit_sum, hbit_mtch, hbit_hbm]
    simp [hp32]
  rw [h0, Nat.zero_testBit] at hbit
  exact Bool.false_ne_true hbit

theorem pat32_ofNat {n : Nat} (hn : n < 2 ^ 32) : pat32 (Int.ofNat n) = n := by
  show ((Int.ofNat n) % (2 ^ 32 : Int)).toNat = n
  rw [show ((2 : Int) ^ 32) = ((2 ^ 32 : Nat) : Int) by norm_num,
    show (Int.ofNat n % ((2 ^ 32 : Nat) : Int)) = ((n % 2 ^ 32 : Nat) : Int) from rfl,
    Nat.mod_eq_of_lt hn]
  rfl

theorem scanLanes_succ (w e mask : Nat) (v : Int) (fuel j : Nat) :
    scanLanes w e mask v (fuel + 1) j =
      if Int.ofNat ((w >>> (e * j)) &&& mask) = v then some j
      else scanLanes w e mask v fuel (j + 1) := rfl

theorem scanLanes_spec (w e mask : Nat) (v : Int) :
    ∀ (fuel j : Nat),
      (scanLanes w e mask v fuel j = none ∧
        ∀ t, j ≤ t → t < j + fuel → Int.ofNat ((w >>> (e * t)) &&& mask) ≠ v) ∨
      (∃ t, j ≤ t ∧ t < j + fuel ∧ scanLanes w e mask v fuel j = some t ∧
        Int.ofNat ((w >>> (e * t)) &&& mask) = v ∧
        ∀ t', j ≤ t' → t' < t → Int.ofNat ((w >>> (e * t')) &&& mask) ≠ v) := by
  intro fuel
  induction fuel with
  | zero =>
    intro j
    left
    exact ⟨rfl, fun t h1 h2 => by omega⟩
  | succ fuel ih =>
    intro j
    by_cases hc : Int.ofNat ((w >>> (e * j)) &&& mask) = v
    · right
      refine ⟨j, Nat.le_refl _, by omega, ?_, hc, fun t' h1 h2 => by omega⟩
      rw [scanLanes_succ, if_pos hc]
    · have hrec : scanLanes w e mask v (fuel + 1) j = scanLanes w e mask v fuel (j + 1) := by
        rw [scanLanes_succ, if_neg hc]
      rcases ih (j + 1) with ⟨hn, hall⟩ | ⟨t, ht1, ht2, hsome, heq, hmin⟩
      · left
        refine ⟨by rw [hrec]; exact hn, ?_⟩
        intro t h1 h2
        rcases Nat.eq_or_lt_of_le h1 with h | h
        · rw [← h]; exact hc
        · exact hall t h (by omega)
      · right
        refine ⟨t, by omega, by omega, by rw [hrec]; exact hsome, heq, ?_⟩
        intro t' h1 h2
        rcases Nat.eq_or_lt_of_le h1 with h | h
        · rw [← h]; exact hc
        · exact hmin t' h h2

theorem findAux_succ (buf : List Nat) (e viint mask : Nat) (v : Int)
    (pattern hbm bigm fuel i : Nat) :
    findAux buf e viint mask v pattern hbm bigm (fuel + 1) i =
      if ((2 ^ 32 - 1) ^^^
          ((((buf.getD i 0 ^^^ pattern) &&& hbm) + hbm) % 2 ^ 32 |||
            (buf.getD i 0 ^^^ pattern) ||| hbm)) &&& bigm ≠ 0 then
        match scanLanes (buf.getD i 0) e mask v viint 0 with
        | some j => Int.ofNat (i * viint + j)
        | none => findAux buf e viint mask v pattern hbm bigm fuel (i + 1)
      else findAux buf e viint mask v pattern hbm bigm fuel (i + 1) := rfl

theorem findSimpleAux_succ (buf : List Nat) (e viint mask : Nat) (v : Int)
    (fuel i : Nat) :
    findSimpleAux buf e viint mask v (fuel + 1) i =
      match scanLanes (buf.getD i 0) e mask v viint 0 with
      | some j => Int.ofNat (i * viint + j)
      | none => findSimpleAux buf e viint mask v fuel (i + 1) := rfl

/-- The SWAR word loop of `find` computes exactly the plain first-match
linear scan: the filter may flag words spuriously (the confirmation scan
then finds nothing and moves on) but never skips a word containing a
lane that compares equal to `value`. -/
theorem findAux_eq_simple {buf : List Nat} {e : Nat} (he : 0 < e) (v : Int) :
    ∀ (fuel i : Nat),
      findAux buf e (VALS_IN_INT e) (2 ^ e - 1) v
        (orLanes (pat32 v) e (VALS_IN_INT e))
        (orLanes ((2 ^ e - 1) >>> 1) e (VALS_IN_INT e)) (2 ^ 32 - 1) fuel i =
      findSimpleAux buf e (VALS_IN_INT e) (2 ^ e - 1) v fuel i := by
  intro fuel
  induction fuel with
  | zero => intro i; rfl
  | succ fuel ih =>
    intro i
    rw [findAux_succ, findSimpleAux_succ]
    cases hscan : scanLanes (buf.getD i 0) e (2 ^ e - 1) v (VALS_IN_INT e) 0 with
    | none =>
      by_cases hflag : ((2 ^ 32 - 1) ^^^
          ((((buf.getD i 0 ^^^ orLanes (pat32 v) e (VALS_IN_INT e)) &&&
              orLanes ((2 ^ e - 1) >>> 1) e (VALS_IN_INT e)) +
            orLanes ((2 ^ e - 1) >>> 1) e (VALS_IN_INT e)) % 2 ^ 32 |||
            (buf.getD i 0 ^^^ orLanes (pat32 v) e (VALS_IN_INT e)) |||
            orLanes ((2 ^ e - 1) >>> 1) e (VALS_IN_INT e))) &&& (2 ^ 32 - 1) ≠ 0
      · rw [if_pos hflag]
        exact ih (i + 1)
      · rw [if_neg hflag]
        exact ih (i + 1)
    | some j =>
      -- the confirmation scan found lane j; show the filter flags the word
      have hspec := scanLanes_spec (buf.getD i 0) e (2 ^ e - 1) v (VALS_IN_INT e) 0
      rcases hspec with ⟨hn, _⟩ | ⟨t, _, ht2, hsome, heq, _⟩
      · rw [hn] at hscan; cases hscan
      · rw [hsome] at hscan
        injection hscan with htj
        subst htj
        have hj : t < VALS_IN_INT e := by omega
        have he32 : e ≤ 32 := by
          by_contra hgt
          have h0 : VALS_IN_INT e = 0 := by
            unfold VALS_IN_INT BITS_IN_INT
            exact Nat.div_eq_of_lt (by omega)
          omega
        have h2e32 : (2 : Nat) ^ e ≤ 2 ^ 32 := Nat.pow_le_pow_right (by omega) he32
        have hlane_lt : laneOf (buf.getD i 0) e t < 2 ^ e := laneOf_lt _ _ _
        have hlane32 : laneOf (buf.getD i 0) e t < 2 ^ 32 :=
          Nat.lt_of_lt_of_le hlane_lt h2e32
        have hveq : v = Int.ofNat (laneOf (buf.getD i 0) e t) := heq.symm
        have hu : pat32 v = laneOf (buf.getD i 0) e t := by
          rw [hveq]
          exact pat32_ofNat hlane32
        have hu_lt : pat32 v < 2 ^ e := by rw [hu]; exact hlane_lt
        have hpat : laneOf (orLanes (pat32 v) e (VALS_IN_INT e)) e t = pat32 v := by
          rw [orLanes_eq_lanes hu_lt (e_mul_viint_le e)]
          exact laneOf_lanes (fun _ _ => hu_lt) hj
        have hzero :
            laneOf (buf.getD i 0 ^^^ orLanes (pat32 v) e (VALS_IN_INT e)) e t = 0 := by
          rw [laneOf_xor, hpat, hu]
          exact Nat.xor_self _
        have hflag := swar_flags_ne_zero he hj hzero
        rw [if_pos hflag]

theorem div_mod_of_lane_range {i viint t : Nat} (h1 : i * viint ≤ t)
    (h2 : t < (i + 1) * viint) :
    t / viint = i ∧ t % viint = t - i * viint := by
  have hsucc : (i + 1) * viint = i * viint + viint := by ring
  rw [hsucc] at h2
  have hv : 0 < viint := by omega
  have h5 : t - i * viint < viint := by omega
  have h6 : t = viint * i + (t - i * viint) := by
    rw [Nat.mul_comm]
    omega
  constructor
  · rw [h6, Nat.mul_add_div hv, Nat.div_eq_of_lt h5]
    omega
  · conv_lhs => rw [h6]
    rw [Nat.mul_add_mod, Nat.mod_eq_of_lt h5]

theorem findSimpleAux_spec (buf : List Nat) (e viint mask : Nat) (v : Int) :
    ∀ (fuel i : Nat),
      (findSimpleAux buf e viint mask v fuel i = -1 ∧
        ∀ t, i * viint ≤ t → t < (i + fuel) * viint →
          Int.ofNat ((buf.getD (t / viint) 0 >>> (e * (t % viint))) &&& mask) ≠ v) ∨
      (∃ t, i * viint ≤ t ∧ t < (i + fuel) * viint ∧
        findSimpleAux buf e viint mask v fuel i = Int.ofNat t ∧
        Int.ofNat ((buf.getD (t / viint) 0 >>> (e * (t % viint))) &&& mask) = v ∧
        ∀ t', i * viint ≤ t' → t' < t →
          Int.ofNat ((buf.getD (t' / viint) 0 >>> (e * (t' % viint))) &&& mask) ≠ v) := by
  intro fuel
  induction fuel with
  | zero =>
    intro i
    left
    refine ⟨rfl, fun t h1 h2 => ?_⟩
    rw [Nat.add_zero] at h2
    omega
  | succ fuel ih =>
    intro i
    have hsucc : (i + 1) * viint = i * viint + viint := by ring
    have hshift : (i + 1 + fuel) * viint = (i + (fuel + 1)) * viint := by ring_nf
    have hchain : i * viint + viint ≤ (i + (fuel + 1)) * viint := by
      have hx : (i + (fuel + 1)) * viint = i * viint + fuel * viint + viint := by ring
      omega
    have hconv : ∀ t, i * viint ≤ t → t < (i + 1) * viint →
        t / viint = i ∧ t % viint = t - i * viint :=
      fun t h1 h2 => div_mod_of_lane_range h1 h2
    rw [findSimpleAux_succ]
    cases hscan : scanLanes (buf.getD i 0) e mask v viint 0 with
    | some j =>
      rcases scanLanes_spec (buf.getD i 0) e mask v viint 0 with
        ⟨hn, _⟩ | ⟨t, _, ht2, hsome, heq, hmin⟩
      · rw [hn] at hscan; cases hscan
      · rw [hsome] at hscan
        injection hscan with htj
        subst htj
        right
        have htv : t < viint := by omega
        refine ⟨i * viint + t, by omega, by omega, rfl, ?_, ?_⟩
        · have hc := hconv (i * viint + t) (by omega) (by omega)
          rw [hc.1, hc.2]
          have h7 : i * viint + t - i * viint = t := by omega
          rw [h7]
          exact heq
        · intro t' h1 h2
          have hc := hconv t' h1 (by omega)
          rw [hc.1, hc.2]
          exact hmin (t' - i * viint) (by omega) (by omega)
    | none =>
      rcases scanLanes_spec (buf.getD i 0) e mask v viint 0 with
        ⟨hn, hall⟩ | ⟨t, _, _, hsome, _, _⟩
      swap
      · rw [hsome] at hscan; cases hscan
      · have hword : ∀ t, i * viint ≤ t → t < (i + 1) * viint →
            Int.ofNat ((buf.getD (t / viint) 0 >>> (e * (t % viint))) &&& mask) ≠ v := by
          intro t h1 h2
          have hc := hconv t h1 h2
          rw [hc.1, hc.2]
          exact hall (t - i * viint) (by omega) (by omega)
        rcases ih (i + 1) with ⟨hres, hrest⟩ | ⟨t, ht1, ht2, hres, heq, hmin⟩
        · left
          refine ⟨hres, ?_⟩
          intro t h1 h2
          rcases Nat.lt_or_ge t ((i + 1) * viint) with h | h
          · exact hword t h1 h
          · exact hrest t h (by omega)
        · right
          refine ⟨t, by omega, by omega, hres, heq, ?_⟩
          intro t' h1 h2
          rcases Nat.lt_or_ge t' ((i + 1) * viint) with h | h
          · exact hword t' h1 h
          · exact hmin t' h h2

/-- Soundness of the word loop of `find`: whatever the SWAR filter does,
a non-`-1` result always comes out of the per-lane confirmation scan, so
it lies within the scanned word range and its masked lane compares equal
to `value`. -/
theorem findAux_result (buf : List Nat) (e viint mask : Nat) (v : Int)
    (pattern hbm bigm : Nat) :
    ∀ (fuel i : Nat),
      findAux buf e viint mask v pattern hbm bigm fuel i = -1 ∨
      ∃ t : Nat, findAux buf e viint mask v pattern hbm bigm fuel i = Int.ofNat t ∧
        i * viint ≤ t ∧ t < (i + fuel) * viint ∧
        Int.ofNat ((buf.getD (t / viint) 0 >>> (e * (t % viint))) &&& mask) = v := by
  intro fuel
  induction fuel with
  | zero => intro i; left; rfl
  | succ fuel ih =>
    intro i
    have hsucc : (i + 1) * viint = i * viint + viint := by ring
    have hshift : (i + 1 + fuel) * viint = (i + (fuel + 1)) * viint := by ring_nf
    have hchain : i * viint + viint ≤ (i + (fuel + 1)) * viint := by
      have hx : (i + (fuel + 1)) * viint = i * viint + fuel * viint + viint := by ring
      omega
    have hnext : ∀ r : Int, findAux buf e viint mask v pattern hbm bigm fuel (i + 1) = r →
        findAux buf e viint mask v pattern hbm bigm fuel (i + 1) = -1 ∨
        ∃ t : Nat, findAux buf e viint mask v pattern hbm bigm fuel (i + 1) = Int.ofNat t ∧
          i * viint ≤ t ∧ t < (i + (fuel + 1)) * viint ∧
          Int.ofNat ((buf.getD (t / viint) 0 >>> (e * (t % viint))) &&& mask) = v := by
      intro _ _
      rcases ih (i + 1) with h | ⟨t, hres, ht1, ht2, heq⟩
      · left; exact h
      · right
        exact ⟨t, hres, by omega, by omega, heq⟩
    rw [findAux_succ]
    by_cases hflag : ((2 ^ 32 - 1) ^^^
        ((((buf.getD i 0 ^^^ pattern) &&& hbm) + hbm) % 2 ^ 32 |||
          (buf.getD i 0 ^^^ pattern) ||| hbm)) &&& bigm ≠ 0
    · rw [if_pos hflag]
      cases hscan : scanLanes (buf.getD i 0) e mask v viint 0 with
      | some j =>
        rcases scanLanes_spec (buf.getD i 0) e mask v viint 0 with
          ⟨hn, _⟩ | ⟨t, _, ht2, hsome, heq, _⟩
        · rw [hn] at hscan; cases hscan
        · rw [hsome] at hscan
          injection hscan with htj
          subst htj
          right
          have htv : t < viint := by omega
          refine ⟨i * viint + t, rfl, by omega, by omega, ?_⟩
          have hlo : i * viint ≤ i * viint + t := by omega
          have hhi : i * viint + t < (i + 1) * viint := by omega
          have hc := div_mod_of_lane_range hlo hhi
          rw [hc.1, hc.2]
          have h7 : i * viint + t - i * viint = t := by omega
          rw [h7]
          exact heq
      | none =>
        rcases hnext _ rfl with h | ⟨t, hres, ht1, ht2, heq⟩
        · left; exact h
        · right; exact ⟨t, hres, ht1, ht2, heq⟩
    · rw [if_neg hflag]
      rcases hnext _ rfl with h | ⟨t, hres, ht1, ht2, heq⟩
      · left; exact h
      · right; exact ⟨t, hres, ht1, ht2, heq⟩

theorem getD_set_ne (l : List Nat) (i j a d : Nat) (h : i ≠ j) :
    (l.set i a).getD j d = l.getD j d := by
  rw [List.getD_eq_getElem?_getD, List.getD_eq_getElem?_getD, List.getElem?_set_ne h]

theorem getD_set_self (l : List Nat) (i a d : Nat) (h : i < l.length) :
    (l.set i a).getD i d = a := by
  rw [List.getD_eq_getElem?_getD, List.getElem?_set_self h]
  rfl

/-- Bit-level behaviour of the word update of `_put` when the written
pattern `u` fits in `e` bits: positions inside the target field take the
bits of `u`, every other position of the word is untouched. -/
theorem put_word_testBit {w u e sh : Nat} (hw : w < 2 ^ 32) (hu : u < 2 ^ e)
    (hse : sh + e ≤ 32) (p : Nat) :
    ((w &&& ((2 ^ 32 - 1) ^^^ ((2 ^ e - 1) <<< sh))) ||| ((u <<< sh) % 2 ^ 32)).testBit p
      = if sh ≤ p ∧ p < sh + e then u.testBit (p - sh) else w.testBit p := by
  rw [Nat.testBit_or, Nat.testBit_and, Nat.testBit_xor, Nat.testBit_mod_two_pow,
    Nat.testBit_shiftLeft, Nat.testBit_shiftLeft, Nat.testBit_two_pow_sub_one,
    Nat.testBit_two_pow_sub_one]
  rcases Nat.lt_or_ge p sh with hp1 | hp1
  · have c1 : p < 32 := by omega
    have c2 : ¬ (sh ≤ p) := by omega
    simp [c1, c2]
  · rcases Nat.lt_or_ge p (sh + e) with hp2 | hp2
    · have c1 : p < 32 := by omega
      have c2 : sh ≤ p := hp1
      have c3 : p - sh < e := by omega
      simp [c1, c2, c3, hp2]
    · rcases Nat.lt_or_ge p 32 with hp3 | hp3
      · have c2 : sh ≤ p := hp1
        have c3 : ¬ (p - sh < e) := by omega
        have c4 : u.testBit (p - sh) = false :=
          Nat.testBit_eq_false_of_lt
            (Nat.lt_of_lt_of_le hu (Nat.pow_le_pow_right (by omega) (by omega)))
        have c5 : ¬ (sh ≤ p ∧ p < sh + e) := by omega
        simp [hp3, c2, c3, c4, c5]
        exact fun _ => hp2
      · have c1 : ¬ (p < 32) := by omega
        have c2 : w.testBit p = false :=
          Nat.testBit_eq_false_of_lt
            (Nat.lt_of_lt_of_le hw (Nat.pow_le_pow_right (by omega) (by omega)))
        have c5 : ¬ (sh ≤ p ∧ p < sh + e) := by omega
        simp [c1, c2, c5]

theorem _put_eq_set (buf : List Nat) (index : Nat) (value : Int) (e : Nat) :
    _put buf index value e =
      buf.set (index / VALS_IN_INT e)
        ((buf.getD (index / VALS_IN_INT e) 0 &&&
            ((2 ^ 32 - 1) ^^^ ((2 ^ e - 1) <<< (e * (index % VALS_IN_INT e))))) |||
          ((pat32 value <<< (e * (index % VALS_IN_INT e))) % 2 ^ 32)) := rfl

theorem lane_shift_bound {e off viint : Nat} (hvi : viint = VALS_IN_INT e)
    (hoff : off < viint) : e * off + e ≤ 32 := by
  have h1 : e * (off + 1) ≤ e * viint := Nat.mul_le_mul_left e hoff
  rw [Nat.mul_succ] at h1
  have h2 : e * viint ≤ 32 := hvi ▸ e_mul_viint_le e
  omega

/-- The word `_put` stores is below `2 ^ 32` whenever the original was. -/
theorem put_word_lt {w u e sh : Nat} (hw : w < 2 ^ 32) :
    (w &&& ((2 ^ 32 - 1) ^^^ ((2 ^ e - 1) <<< sh))) ||| ((u <<< sh) % 2 ^ 32) < 2 ^ 32 := by
  apply Nat.or_lt_two_pow
  · exact Nat.lt_of_le_of_lt Nat.and_le_left hw
  · exact Nat.mod_lt _ (by omega)

theorem testBit_out_of_lane {w u e sh : Nat} (hw : w < 2 ^ 32) (hu : u < 2 ^ e)
    (hse : sh + e ≤ 32) {p : Nat} (hp : p < sh ∨ sh + e ≤ p) :
    ((w &&& ((2 ^ 32 - 1) ^^^ ((2 ^ e - 1) <<< sh))) ||| ((u <<< sh) % 2 ^ 32)).testBit p
      = w.testBit p := by
  rw [put_word_testBit hw hu hse]
  have hc : ¬ (sh ≤ p ∧ p < sh + e) := by omega
  rw [if_neg hc]

theorem bitlenAux_le : ∀ (fuel k x : Nat), x < 2 ^ k → k ≤ fuel → bitlenAux fuel x ≤ k
  | 0, _, _, _, _ => by simp [bitlenAux]
  | fuel + 1, k, x, hx, hk => by
    unfold bitlenAux
    by_cases h0 : x = 0
    · rw [if_pos h0]
      omega
    · rw [if_neg h0]
      have hk1 : 1 ≤ k := by
        by_contra hle
        have hz : k = 0 := by omega
        subst hz
        rw [Nat.pow_zero] at hx
        omega
      have h2 : 2 ^ k = 2 ^ (k - 1) * 2 := by
        rw [← Nat.pow_succ]
        congr 1
        omega
      have hx2 : x / 2 < 2 ^ (k - 1) := by omega
      have := bitlenAux_le fuel (k - 1) (x / 2) hx2 (by omega)
      omega

theorem bitlen_le {x k : Nat} (hx : x < 2 ^ k) (hk : k ≤ 40) : bitlen x ≤ k :=
  bitlenAux_le 40 k x hx hk

theorem bitlen_pos {x : Nat} (hx : x ≠ 0) : 1 ≤ bitlen x := by
  show 1 ≤ bitlenAux 40 x
  rw [show (40 : Nat) = 39 + 1 from rfl]
  unfold bitlenAux
  rw [if_neg hx]
  omega

theorem or_one_ne_zero (x : Nat) : x ||| 1 ≠ 0 := by
  intro h
  have h1 : (x ||| 1).testBit 0 = true := by
    rw [Nat.testBit_or]
    simp
  rw [h, Nat.zero_testBit] at h1
  cases h1

theorem pat32_lt (value : Int) : pat32 value < 2 ^ 32 := by
  unfold pat32
  have h1 : value % (2 ^ 32 : Int) < 2 ^ 32 := Int.emod_lt_of_pos value (by norm_num)
  have h2 : (0 : Int) ≤ value % (2 ^ 32 : Int) := Int.emod_nonneg value (by norm_num)
  omega

theorem absPattern_lt (value : Int) : absPattern value < 2 ^ 32 := by
  unfold absPattern
  apply Nat.xor_lt_two_pow
  · exact Nat.mod_lt _ (by omega)
  · split_ifs <;> omega

theorem value_entropy_bounds (v : Int) :
    1 ≤ value_entropy v ∧ value_entropy v ≤ 31 := by
  have h1 : 1 ≤ bitlen (absPattern v ||| 1) := bitlen_pos (or_one_ne_zero _)
  have h2 : bitlen (absPattern v ||| 1) ≤ 32 :=
    bitlen_le (Nat.or_lt_two_pow (absPattern_lt v) (by norm_num)) (by norm_num)
  simp only [value_entropy, BITS_IN_INT]
  split_ifs <;> omega

theorem getD_lt_of_wf {buf : List Nat} (hbuf : ∀ w ∈ buf, w < 2 ^ 32) (i : Nat) :
    buf.getD i 0 < 2 ^ 32 := by
  rcases Nat.lt_or_ge i buf.length with h | h
  · rw [List.getD_eq_getElem?_getD, List.getElem?_eq_getElem h]
    exact hbuf _ (List.getElem_mem h)
  · rw [List.getD_eq_getElem?_getD, List.getElem?_eq_none h]
    simp only [Option.getD_none]
    omega

theorem _put_length (buf : List Nat) (index : Nat) (value : Int) (e : Nat) :
    (_put buf index value e).length = buf.length := by
  rw [_put_eq_set, List.length_set]

theorem _put_wf {buf : List Nat} (hbuf : ∀ w ∈ buf, w < 2 ^ 32)
    (index : Nat) (value : Int) (e : Nat) :
    ∀ w ∈ _put buf index value e, w < 2 ^ 32 := by
  rw [_put_eq_set]
  intro w hw
  rcases List.mem_or_eq_of_mem_set hw with h | h
  · exact hbuf w h
  · rw [h]
    exact put_word_lt (getD_lt_of_wf hbuf _)

theorem foldl_put_length (l : List Nat) (f : Nat → Int) (e : Nat) :
    ∀ nb : List Nat, (l.foldl (fun nb i => _put nb i (f i) e) nb).length = nb.length := by
  induction l with
  | nil => intro nb; rfl
  | cons a l ih =>
    intro nb
    rw [List.foldl_cons, ih, _put_length]

theorem foldl_put_wf (l : List Nat) (f : Nat → Int) (e : Nat) :
    ∀ nb : List Nat, (∀ w ∈ nb, w < 2 ^ 32) →
      ∀ w ∈ l.foldl (fun nb i => _put nb i (f i) e) nb, w < 2 ^ 32 := by
  induction l with
  | nil => intro nb hnb; exact hnb
  | cons a l ih =>
    intro nb hnb
    rw [List.foldl_cons]
    exact ih _ (_put_wf hnb a (f a) e)

theorem viint_pos {e : Nat} (he : 0 < e) (he32 : e ≤ 32) : 0 < VALS_IN_INT e := by
  unfold VALS_IN_INT BITS_IN_INT
  exact Nat.div_pos he32 he

theorem size_le_repack_capacity {n vi : Nat} (hvi : 0 < vi) : n ≤ (n / vi + 1) * vi := by
  have h1 := Nat.div_add_mod n vi
  have h2 : n % vi < vi := Nat.mod_lt _ hvi
  have h3 : (n / vi + 1) * vi = vi * (n / vi) + vi := by ring
  omega

theorem repack_inv {s : State} (h : Inv s) {ve : Nat} (hve1 : 1 ≤ ve)
    (hve2 : ve ≤ 31) (ss : Bool) : Inv (repack s ve ss) := by
  obtain ⟨h1, h2, h3, h4, h5, h6⟩ := h
  unfold repack
  by_cases hc : s.entropy < ve ∨ ss = true
  · rw [if_pos hc]
    unfold Inv
    dsimp only
    refine ⟨hve1, hve2, ?_, ?_, ?_, ?_⟩
    · rw [foldl_put_length, List.length_replicate]
    · rw [foldl_put_length, List.length_replicate]
      exact size_le_repack_capacity (viint_pos (by omega) (by omega))
    · apply foldl_put_wf
      intro w hw
      rw [List.eq_of_mem_replicate hw]
      omega
    · split_ifs <;> omega
  · rw [if_neg hc]
    exact ⟨h1, h2, h3, h4, h5, h6⟩

theorem grow_inv {s : State} (h : Inv s) (index : Nat) : Inv (grow s index) := by
  obtain ⟨h1, h2, h3, h4, h5, h6⟩ := h
  unfold grow
  by_cases hc : s.size ≤ index
  · rw [if_pos hc]
    have hlen : ((s.buffer ++
        List.replicate (index / VALS_IN_INT s.entropy + 1 - s.buffer.length) 0).take
          (index / VALS_IN_INT s.entropy + 1)).length =
        index / VALS_IN_INT s.entropy + 1 := by
      rw [List.length_take, List.length_append, List.length_replicate]
      omega
    unfold Inv
    dsimp only
    refine ⟨h1, h2, ?_, ?_, ?_, h6⟩
    · rw [hlen]
    · rw [hlen]
    · intro w hw
      have hmem := List.mem_of_mem_take hw
      rcases List.mem_append.mp hmem with hm | hm
      · exact h5 w hm
      · rw [List.eq_of_mem_replicate hm]
        omega
  · rw [if_neg hc]
    exact ⟨h1, h2, h3, h4, h5, h6⟩

theorem insert_inv {s : State} (h : Inv s) (index : Nat) (value : Int) :
    Inv (insert s index value) := by
  have hb := value_entropy_bounds value
  have h2 := grow_inv (repack_inv h hb.1 hb.2 (sign_switch s.signed_values value)) index
  obtain ⟨g1, g2, g3, g4, g5, g6⟩ := h2
  unfold insert
  exact ⟨g1, g2, by rw [g3, _put_length], by rw [_put_length]; exact g4,
    _put_wf g5 index value _, g6⟩

theorem init_inv (g : Nat) : Inv (init g) := by
  unfold Inv init
  dsimp only
  refine ⟨by omega, by omega, by simp, by norm_num [VALS_IN_INT, BITS_IN_INT], ?_, by omega⟩
  intro w hw
  have h := List.mem_singleton.mp hw
  rw [h]
  exact Nat.mod_lt _ (by omega)

theorem runProg_inv (g : Nat) (ops : List (Nat × Int)) : Inv (runProg g ops) := by
  unfold runProg
  have hgen : ∀ (l : List (Nat × Int)) (s : State), Inv s →
      Inv (l.foldl (fun s p => insert s p.1 p.2) s) := by
    intro l
    induction l with
    | nil => intro s hs; exact hs
    | cons p l ih =>
      intro s hs
      rw [List.foldl_cons]
      exact ih _ (insert_inv hs p.1 p.2)
  exact hgen ops _ (init_inv g)

theorem grow_entropy (s : State) (index : Nat) : (grow s index).entropy = s.entropy := by
  unfold grow
  split_ifs <;> rfl

theorem grow_signed (s : State) (index : Nat) :
    (grow s index).signed_values = s.signed_values := by
  unfold grow
  split_ifs <;> rfl

theorem repack_entropy (s : State) (ve : Nat) (ss : Bool) :
    (repack s ve ss).entropy = if s.entropy < ve ∨ ss = true then ve else s.entropy := by
  unfold repack
  split_ifs <;> rfl

theorem repack_signed (s : State) (ve : Nat) (ss : Bool) :
    (repack s ve ss).signed_values =
      if s.entropy < ve ∨ ss = true then (if ss then 1 else s.signed_values)
      else s.signed_values := by
  unfold repack
  split_ifs <;> rfl

theorem insert_entropy (s : State) (index : Nat) (value : Int) :
    (insert s index value).entropy =
      (repack s (value_entropy value) (sign_switch s.signed_values value)).entropy := by
  show (grow _ index).entropy = _
  rw [grow_entropy]

theorem insert_signed (s : State) (index : Nat) (value : Int) :
    (insert s index value).signed_values =
      (repack s (value_entropy value) (sign_switch s.signed_values value)).signed_values := by
  show (grow _ index).signed_values = _
  rw [grow_signed]

theorem sign_switch_of_signed (value : Int) : sign_switch 1 value = false := by
  simp [sign_switch]

theorem xor_all_ones {a : Nat} (ha : a < 2 ^ 32) :
    a ^^^ (2 ^ 32 - 1) = 2 ^ 32 - (a + 1) := by
  apply Nat.eq_of_testBit_eq
  intro i
  rw [Nat.testBit_xor, Nat.testBit_two_pow_sub_one, Nat.testBit_two_pow_sub_succ ha]
  rcases Nat.lt_or_ge i 32 with hi | hi
  · simp [hi]
  · have hz : a.testBit i = false :=
      Nat.testBit_eq_false_of_lt
        (Nat.lt_of_lt_of_le ha (Nat.pow_le_pow_right (by omega) hi))
    simp [Nat.not_lt.mpr hi, hz]

/-- On the `int` range the branchless `(value + abs_mask) ^ abs_mask`
computes exactly the absolute value `|value|`. -/
theorem absPattern_eq_natAbs {v : Int} (h1 : -(2 ^ 31) ≤ v) (h2 : v < 2 ^ 31) :
    absPattern v = v.natAbs := by
  unfold absPattern pat32
  by_cases hneg : v < 0
  · rw [if_pos hneg]
    show ((v % (2 ^ 32 : Int)).toNat + (2 ^ 32 - 1)) % 2 ^ 32 ^^^ (2 ^ 32 - 1) = v.natAbs
    have hu1 : 1 ≤ (v % (2 ^ 32 : Int)).toNat := by omega
    have hu2 : (v % (2 ^ 32 : Int)).toNat = 2 ^ 32 - v.natAbs := by omega
    have hmod : ((v % (2 ^ 32 : Int)).toNat + (2 ^ 32 - 1)) % 2 ^ 32 =
        (v % (2 ^ 32 : Int)).toNat - 1 := by omega
    rw [hmod, xor_all_ones (by omega)]
    omega
  · rw [if_neg hneg]
    show ((v % (2 ^ 32 : Int)).toNat + 0) % 2 ^ 32 ^^^ 0 = v.natAbs
    have hu : (v % (2 ^ 32 : Int)).toNat = v.natAbs := by omega
    rw [Nat.add_zero, Nat.mod_eq_of_lt (by omega), Nat.xor_zero, hu]

theorem get_unsigned (s : State) (hsv : s.signed_values = 0) (i : Nat) :
    get s i = Int.ofNat ((s.buffer.getD (i / VALS_IN_INT s.entropy) 0 >>>
      (i % VALS_IN_INT s.entropy * s.entropy)) &&& (2 ^ s.entropy - 1)) := by
  unfold get _get
  rw [hsv]
  simp [Nat.zero_shiftLeft]

theorem find_eq_findSimple (s : State) (v : Int) (he : 0 < s.entropy) :
    find s v = findSimple s v :=
  findAux_eq_simple he v (s.allocated / 4) 0

end Adaptiva

/-!
Claim theorems.  Each theorem below settles one claim of the review of the
specification against the code, over the embedding above.
-/

namespace Adaptiva

/-- C1: the round-trip claim fails on the code.  Inserting `512` at index 0
and then `-1` at index 1 — two distinct indices, ascending order — leaves
`get(0) = 0`, not `512`: the sign switch triggered by `-1` repacks the
whole array at `value_entropy(-1) = 2` bits, truncating the previously
stored `512` to its low two bits.  (`get(1) = -1` still reads back.) -/
theorem roundtrip_fails_after_sign_switch :
    get (runProg 0 [(0, 512), (1, -1)]) 0 = 0 ∧
    get (runProg 0 [(0, 512), (1, -1)]) 0 ≠ 512 ∧
    get (runProg 0 [(0, 512), (1, -1)]) 1 = -1 := by
  decide

/-- C2: repack is not value-preserving.  After `insert(0, 300)` the
container holds `300` at 9 bits; the repack triggered by `insert(1, -1)`
re-encodes every element at the new width `2`, so `get(0)` afterwards is
`0`, not `300` — the re-encoding kept only the low bits. -/
theorem repack_truncates_previous_value :
    (runProg 0 [(0, 300)]).entropy = 9 ∧
    get (runProg 0 [(0, 300)]) 0 = 300 ∧
    (runProg 0 [(0, 300), (1, -1)]).entropy = 2 ∧
    get (runProg 0 [(0, 300), (1, -1)]) 0 = 0 ∧
    get (runProg 0 [(0, 300), (1, -1)]) 0 ≠ 300 := by
  decide

/-- C3 counterexample: entropy is not monotone.  `insert(0, 512)` raises
entropy to 10; the subsequent `insert(1, -1)` performs a sign-switch
repack whose new entropy is `value_entropy(-1) = 2` — entropy decreased
from 10 to 2 within one operation. -/
theorem entropy_decreases_on_sign_switch :
    (runProg 0 [(0, 512)]).entropy = 10 ∧
    (runProg 0 [(0, 512), (1, -1)]).entropy = 2 := by
  decide

/-- C3 amended: `signed_values`, once 1, stays 1 across any `insert`; and
entropy is non-decreasing across any `insert` that does not request a
sign switch.  (When `sign_switch` fires, the repack sets entropy to the
new value's width, which may be smaller — see the counterexample.) -/
theorem insert_monotonicity (s : State) (index : Nat) (value : Int) :
    (s.signed_values = 1 → (insert s index value).signed_values = 1) ∧
    (sign_switch s.signed_values value = false →
      s.entropy ≤ (insert s index value).entropy) := by
  constructor
  · intro h1
    rw [insert_signed, repack_signed, h1, sign_switch_of_signed]
    simp
  · intro hss
    rw [insert_entropy, repack_entropy, hss]
    simp only [Bool.false_eq_true, or_false]
    split_ifs with hc
    · omega
    · exact Nat.le_refl _

/-- C3 witness: a concrete non-switching insert does not lower entropy. -/
theorem insert_monotonicity_witness :
    (runProg 0 [(0, 5)]).entropy ≤ (insert (runProg 0 [(0, 5)]) 1 2).entropy :=
  (insert_monotonicity (runProg 0 [(0, 5)]) 1 2).2 (by decide)

/-- C4 counterexample: `find` never finds a stored negative value.  After
`insert(0, -2)` the container is signed with entropy 3 and `get(0) = -2`,
but `find(-2)` returns the not-found sentinel `-1`: the confirmation scan
compares the raw (non-negative) lane bits against the negative `value`,
which can never be equal. -/
theorem find_misses_negative_value :
    get (runProg 0 [(0, -2)]) 0 = -2 ∧
    find (runProg 0 [(0, -2)]) (-2) = -1 := by
  decide

/-- C4 amended: while the container is unsigned, `find(v)` is a correct
first-match search — over the allocated lane range, not `size`: it
returns the lowest allocated-lane index whose value reads back (via
`get`) as `v`, and `-1` exactly when no allocated lane holds `v`.  In
signed mode the claim fails for negative and high-lane values (see the
counterexample). -/
theorem find_unsigned_first_match (s : State) (v : Int)
    (he : 0 < s.entropy) (hsv : s.signed_values = 0) :
    (find s v = -1 ∧
      ∀ i, i < s.allocated / 4 * VALS_IN_INT s.entropy → get s i ≠ v) ∨
    (∃ i, i < s.allocated / 4 * VALS_IN_INT s.entropy ∧ find s v = Int.ofNat i ∧
      get s i = v ∧ ∀ j, j < i → get s j ≠ v) := by
  have hfind := find_eq_findSimple s v he
  have hget : ∀ t, get s t = Int.ofNat ((s.buffer.getD (t / VALS_IN_INT s.entropy) 0 >>>
      (s.entropy * (t % VALS_IN_INT s.entropy))) &&& (2 ^ s.entropy - 1)) := by
    intro t
    rw [get_unsigned s hsv t, Nat.mul_comm (t % VALS_IN_INT s.entropy) s.entropy]
  have hzero : (0 + s.allocated / 4) * VALS_IN_INT s.entropy =
      s.allocated / 4 * VALS_IN_INT s.entropy := by
    rw [Nat.zero_add]
  rcases findSimpleAux_spec s.buffer s.entropy (VALS_IN_INT s.entropy)
      (2 ^ s.entropy - 1) v (s.allocated / 4) 0 with
    ⟨hres, hall⟩ | ⟨t, ht1, ht2, hres, heq, hmin⟩
  · left
    constructor
    · rw [hfind]
      exact hres
    · intro i hi
      rw [hget i]
      apply hall i (by simp)
      rw [hzero]
      exact hi
  · rw [hzero] at ht2
    right
    refine ⟨t, ht2, ?_, ?_, ?_⟩
    · rw [hfind]
      exact hres
    · rw [hget t]
      exact heq
    · intro j hj
      rw [hget j]
      exact hmin j (by simp) hj

/-- C4 witness: the amended first-match property instantiated on a
concrete unsigned container. -/
theorem find_unsigned_first_match_witness :
    (find (runProg 0 [(0, 5)]) 5 = -1 ∧
      ∀ i, i < (runProg 0 [(0, 5)]).allocated / 4 *
          VALS_IN_INT (runProg 0 [(0, 5)]).entropy →
        get (runProg 0 [(0, 5)]) i ≠ 5) ∨
    (∃ i, i < (runProg 0 [(0, 5)]).allocated / 4 *
        VALS_IN_INT (runProg 0 [(0, 5)]).entropy ∧
      find (runProg 0 [(0, 5)]) 5 = Int.ofNat i ∧
      get (runProg 0 [(0, 5)]) i = 5 ∧ ∀ j, j < i → get (runProg 0 [(0, 5)]) j ≠ 5) :=
  find_unsigned_first_match (runProg 0 [(0, 5)]) 5 (by decide) (by decide)

set_option maxRecDepth 20000 in
/-- C5 counterexample: `find` is not restricted to `logical_size`.  Fill
all 32 one-bit slots with `1`, then `insert(0, 3)`: the repack allocates
3 words = 48 two-bit lanes while `size` stays 32, and `find(0)` returns
32 — an allocated-but-unused lane at an index equal to `size`. -/
theorem find_returns_index_beyond_size :
    (runProg 0 (((List.range 32).map fun i => (i, (1 : Int))) ++ [(0, 3)])).size = 32 ∧
    find (runProg 0 (((List.range 32).map fun i => (i, (1 : Int))) ++ [(0, 3)])) 0 = 32 := by
  decide

/-- C5 amended: the word loop of `find` runs over `allocated / 4` words —
the whole allocation.  Any non-`-1` result is an index below the
allocated lane capacity whose raw lane bits compare equal to `value`;
nothing restricts it to `logical_size` (see the counterexample). -/
theorem find_result_within_allocation (s : State) (v : Int) :
    find s v = -1 ∨
    ∃ i : Nat, find s v = Int.ofNat i ∧
      i < s.allocated / 4 * VALS_IN_INT s.entropy ∧
      Int.ofNat (rawLane s i) = v := by
  have h := findAux_result s.buffer s.entropy (VALS_IN_INT s.entropy)
    (2 ^ s.entropy - 1) v (orLanes (pat32 v) s.entropy (VALS_IN_INT s.entropy))
    (orLanes ((2 ^ s.entropy - 1) >>> 1) s.entropy (VALS_IN_INT s.entropy))
    (2 ^ 32 - 1) (s.allocated / 4) 0
  rcases h with h | ⟨t, hres, ht1, ht2, heq⟩
  · left
    exact h
  · right
    refine ⟨t, hres, ?_, ?_⟩
    · have hzero : (0 + s.allocated / 4) * VALS_IN_INT s.entropy =
          s.allocated / 4 * VALS_IN_INT s.entropy := by
        rw [Nat.zero_add]
      rw [← hzero]
      exact ht2
    · unfold rawLane
      rw [Nat.mul_comm (t % VALS_IN_INT s.entropy) s.entropy]
      exact heq

/-- C6 counterexample: `_put` does not mask `value` to `entropy` bits.
Writing value `2` into the 1-bit lane 0 of a zero word produces the word
`2`: lane 1 changed from 0 to 1 although only lane 0 was addressed. -/
theorem put_spills_into_adjacent_lane :
    _put [0] 0 2 1 = [2] ∧ laneOf 2 1 1 = 1 ∧ laneOf 0 1 1 = 0 := by
  decide

/-- C6 amended: when the 32-bit pattern of `value` fits in `entropy` bits
(as it does for every in-range non-negative value, but not for negative
values, whose patterns carry sign bits above the lane), `_put` updates
exactly the addressed lane: the word count is unchanged, every other word
is unchanged, the target lane receives the pattern, and the other lanes
and the padding bits of the target word are unchanged. -/
theorem put_lane_isolation (buf : List Nat) (index : Nat) (value : Int) (e : Nat)
    (he : 0 < e) (he32 : e ≤ 31)
    (hfit : pat32 value < 2 ^ e)
    (hwf : ∀ w ∈ buf, w < 2 ^ 32)
    (hj : index / VALS_IN_INT e < buf.length) :
    (_put buf index value e).length = buf.length ∧
    (∀ k, k ≠ index / VALS_IN_INT e →
      (_put buf index value e).getD k 0 = buf.getD k 0) ∧
    laneOf ((_put buf index value e).getD (index / VALS_IN_INT e) 0) e
      (index % VALS_IN_INT e) = pat32 value ∧
    (∀ off, off < VALS_IN_INT e → off ≠ index % VALS_IN_INT e →
      laneOf ((_put buf index value e).getD (index / VALS_IN_INT e) 0) e off =
        laneOf (buf.getD (index / VALS_IN_INT e) 0) e off) ∧
    ((_put buf index value e).getD (index / VALS_IN_INT e) 0) >>> (VALS_IN_INT e * e) =
      (buf.getD (index / VALS_IN_INT e) 0) >>> (VALS_IN_INT e * e) := by
  have hvi : 0 < VALS_IN_INT e := viint_pos he (by omega)
  have hoff : index % VALS_IN_INT e < VALS_IN_INT e := Nat.mod_lt _ hvi
  have hsh : e * (index % VALS_IN_INT e) + e ≤ 32 := lane_shift_bound rfl hoff
  have hw0 : buf.getD (index / VALS_IN_INT e) 0 < 2 ^ 32 := getD_lt_of_wf hwf _
  have hword : (_put buf index value e).getD (index / VALS_IN_INT e) 0 =
      (buf.getD (index / VALS_IN_INT e) 0 &&&
        ((2 ^ 32 - 1) ^^^ ((2 ^ e - 1) <<< (e * (index % VALS_IN_INT e))))) |||
      ((pat32 value <<< (e * (index % VALS_IN_INT e))) % 2 ^ 32) := by
    rw [_put_eq_set]
    exact getD_set_self _ _ _ _ hj
  refine ⟨_put_length _ _ _ _, ?_, ?_, ?_, ?_⟩
  · intro k hk
    rw [_put_eq_set]
    exact getD_set_ne _ _ _ _ _ (fun h => hk h.symm)
  · rw [hword]
    apply Nat.eq_of_testBit_eq
    intro r
    rw [testBit_laneOf]
    rcases Nat.lt_or_ge r e with hr | hr
    · rw [put_word_testBit hw0 hfit hsh]
      have hin : e * (index % VALS_IN_INT e) ≤ e * (index % VALS_IN_INT e) + r ∧
          e * (index % VALS_IN_INT e) + r < e * (index % VALS_IN_INT e) + e := by omega
      rw [if_pos hin, Nat.add_sub_cancel_left]
      simp [hr]
    · have hz : (pat32 value).testBit r = false :=
        Nat.testBit_eq_false_of_lt
          (Nat.lt_of_lt_of_le hfit (Nat.pow_le_pow_right (by omega) hr))
      simp [Nat.not_lt.mpr hr, hz]
  · intro off hoff2 hne
    rw [hword]
    apply Nat.eq_of_testBit_eq
    intro r
    rw [testBit_laneOf, testBit_laneOf]
    rcases Nat.lt_or_ge r e with hr | hr
    · have hdisj : e * off + r < e * (index % VALS_IN_INT e) ∨
          e * (index % VALS_IN_INT e) + e ≤ e * off + r := by
        rcases Nat.lt_or_ge off (index % VALS_IN_INT e) with h | h
        · left
          have h1 : e * (off + 1) ≤ e * (index % VALS_IN_INT e) :=
            Nat.mul_le_mul_left e h
          rw [Nat.mul_succ] at h1
          omega
        · right
          have hgt : index % VALS_IN_INT e < off := by omega
          have h1 : e * (index % VALS_IN_INT e + 1) ≤ e * off :=
            Nat.mul_le_mul_left e hgt
          rw [Nat.mul_succ] at h1
          omega
      rw [testBit_out_of_lane hw0 hfit hsh hdisj]
    · simp [Nat.not_lt.mpr hr]
  · rw [hword]
    apply Nat.eq_of_testBit_eq
    intro r
    rw [Nat.testBit_shiftRight, Nat.testBit_shiftRight]
    apply testBit_out_of_lane hw0 hfit hsh
    right
    have h1 : e * (index % VALS_IN_INT e + 1) ≤ e * VALS_IN_INT e :=
      Nat.mul_le_mul_left e hoff
    rw [Nat.mul_succ] at h1
    have h2 : e * VALS_IN_INT e = VALS_IN_INT e * e := Nat.mul_comm _ _
    omega

/-- C6 witness: lane isolation instantiated on a concrete word list. -/
theorem put_lane_isolation_witness :
    (_put [5, 9] 1 (1 : Int) 2).length = ([5, 9] : List Nat).length ∧
    (∀ k, k ≠ 1 / VALS_IN_INT 2 →
      (_put [5, 9] 1 (1 : Int) 2).getD k 0 = ([5, 9] : List Nat).getD k 0) ∧
    laneOf ((_put [5, 9] 1 (1 : Int) 2).getD (1 / VALS_IN_INT 2) 0) 2
      (1 % VALS_IN_INT 2) = pat32 1 ∧
    (∀ off, off < VALS_IN_INT 2 → off ≠ 1 % VALS_IN_INT 2 →
      laneOf ((_put [5, 9] 1 (1 : Int) 2).getD (1 / VALS_IN_INT 2) 0) 2 off =
        laneOf (([5, 9] : List Nat).getD (1 / VALS_IN_INT 2) 0) 2 off) ∧
    ((_put [5, 9] 1 (1 : Int) 2).getD (1 / VALS_IN_INT 2) 0) >>> (VALS_IN_INT 2 * 2) =
      (([5, 9] : List Nat).getD (1 / VALS_IN_INT 2) 0) >>> (VALS_IN_INT 2 * 2) :=
  put_lane_isolation [5, 9] 1 1 2 (by decide) (by decide) (by decide) (by decide)
    (by decide)

/-- C7: the initial state after `init()`.  `entropy = 1`, unsigned,
`size = 32` one-bit slots hold as claimed, but the single storage word is
obtained from `malloc` and never cleared: when the allocator returns a
word with bit 0 set (modelled here by `init 1`), `get(0)` returns `1`,
not the claimed `0`. -/
theorem init_leaves_word_uninitialized :
    (init 1).entropy = 1 ∧ (init 1).signed_values = 0 ∧ (init 1).size = 32 ∧
    get (init 1) 0 = 1 ∧ get (init 1) 0 ≠ 0 := by
  decide

/-- C8 counterexample: the clamp is not governed by the unsigned-equivalent
width alone.  For `value = -32768` the magnitude needs 16 bits — not more
than `BITS_IN_INT / 2 = 16` — yet `value_entropy` is clamped to 31 (and
the sign switch fires), because the code compares the width after the
sign-bit increment. -/
theorem clamp_fires_at_width_sixteen :
    value_entropy (-32768) = 31 ∧ sign_switch 0 (-32768) = true ∧
    bitlen (Int.natAbs (-32768) ||| 1) = 16 := by
  decide

/-- C8 amended: over the whole `int` range, the width is clamped to 31
exactly when the candidate width including the sign-bit increment for a
negative value — `bitlen(|v|) + (v < 0 ? 1 : 0)` — exceeds
`BITS_IN_INT / 2 = 16`; and whenever that clamp condition holds while the
container is unsigned, the sign switch fires regardless of the value's
sign. -/
theorem value_entropy_clamp_characterization (sv : Nat) {v : Int}
    (h1 : -(2 ^ 31) ≤ v) (h2 : v < 2 ^ 31) :
    (value_entropy v = 31 ↔
      16 < bitlen (v.natAbs ||| 1) + (if v < 0 then 1 else 0)) ∧
    (16 < bitlen (v.natAbs ||| 1) + (if v < 0 then 1 else 0) → sv = 0 →
      sign_switch sv v = true) := by
  have habs : absPattern v = v.natAbs := absPattern_eq_natAbs h1 h2
  have hveq : (if v < 0 then bitlen (absPattern v ||| 1) + 1
        else bitlen (absPattern v ||| 1)) =
      bitlen (v.natAbs ||| 1) + (if v < 0 then 1 else 0) := by
    rw [habs]
    split_ifs <;> omega
  constructor
  · have hVE : value_entropy v =
        if 16 < bitlen (v.natAbs ||| 1) + (if v < 0 then 1 else 0) then 31
        else bitlen (v.natAbs ||| 1) + (if v < 0 then 1 else 0) := by
      simp only [value_entropy, BITS_IN_INT]
      rw [hveq]
    rw [hVE]
    set w := bitlen (v.natAbs ||| 1) + (if v < 0 then 1 else 0) with hw
    split_ifs with h
    · exact ⟨fun _ => h, fun _ => rfl⟩
    · constructor
      · intro hh
        omega
      · intro hh
        exact absurd hh h
  · intro hgt hsv0
    simp only [sign_switch, BITS_IN_INT]
    rw [hveq, hsv0]
    simp [hgt]

/-- C8 witness: the characterization applied at a concrete wide negative
value. -/
theorem value_entropy_clamp_witness :
    value_entropy (-70000) = 31 ↔
      16 < bitlen (Int.natAbs (-70000) ||| 1) + (if (-70000 : Int) < 0 then 1 else 0) :=
  (value_entropy_clamp_characterization 0 (by decide) (by decide)).1

/-- C9: entropy bounds on every reachable state.  Every run of the program
(any `malloc` content, any insert sequence) keeps
`1 ≤ entropy ≤ BITS_IN_INT - 1 = 31`; consequently every shift amount the
code forms — `entropy - 1` for the sign mask, `off * entropy` with
`off < VALS_IN_INT` for the lane shifts, and
`32 - VALS_IN_INT * entropy` for `big_mask` — is strictly below the word
width, so no shift by 32 or more is ever performed. -/
theorem entropy_bounds_all_runs (g : Nat) (ops : List (Nat × Int)) :
    1 ≤ (runProg g ops).entropy ∧ (runProg g ops).entropy ≤ 31 ∧
    (runProg g ops).entropy - 1 < 32 ∧
    32 - VALS_IN_INT (runProg g ops).entropy * (runProg g ops).entropy < 32 ∧
    ∀ off, off < VALS_IN_INT (runProg g ops).entropy →
      off * (runProg g ops).entropy + (runProg g ops).entropy ≤ 32 := by
  obtain ⟨h1, h2, _, _, _, _⟩ := runProg_inv g ops
  have hvi : 0 < VALS_IN_INT (runProg g ops).entropy := viint_pos (by omega) (by omega)
  refine ⟨h1, h2, by omega, ?_, ?_⟩
  · have hprod : 1 ≤ VALS_IN_INT (runProg g ops).entropy * (runProg g ops).entropy :=
      Nat.mul_pos hvi (by omega)
    omega
  · intro off hoff
    have hb := lane_shift_bound rfl hoff
    rw [Nat.mul_comm off (runProg g ops).entropy]
    exact hb

/-- C9 witness: the bounds at the freshly initialized container. -/
theorem entropy_bounds_witness :
    1 ≤ (runProg 0 []).entropy ∧ (runProg 0 []).entropy ≤ 31 :=
  ⟨(entropy_bounds_all_runs 0 []).1, (entropy_bounds_all_runs 0 []).2.1⟩

/-- C10: capacity invariant on every reachable state.  `allocated` always
equals 4 bytes per buffer word, the allocated lane capacity
`buffer.length * VALS_IN_INT entropy` covers `size`, and therefore the
bit codec's word index `i / VALS_IN_INT entropy` stays inside the buffer
for every logical index `i < size`. -/
theorem capacity_invariant_all_runs (g : Nat) (ops : List (Nat × Int)) :
    (runProg g ops).allocated = 4 * (runProg g ops).buffer.length ∧
    (runProg g ops).size ≤
      (runProg g ops).buffer.length * VALS_IN_INT (runProg g ops).entropy ∧
    ∀ i, i < (runProg g ops).size →
      i / VALS_IN_INT (runProg g ops).entropy < (runProg g ops).buffer.length := by
  obtain ⟨h1, h2, h3, h4, h5, h6⟩ := runProg_inv g ops
  refine ⟨h3, h4, ?_⟩
  intro i hi
  have hvi : 0 < VALS_IN_INT (runProg g ops).entropy := viint_pos (by omega) (by omega)
  have hlt : i < (runProg g ops).buffer.length * VALS_IN_INT (runProg g ops).entropy := by
    omega
  exact (Nat.div_lt_iff_lt_mul hvi).mpr hlt

/-- C10 witness: the capacity facts at the freshly initialized container. -/
theorem capacity_invariant_witness :
    (runProg 0 []).allocated = 4 * (runProg 0 []).buffer.length ∧
    (runProg 0 []).size ≤
      (runProg 0 []).buffer.length * VALS_IN_INT (runProg 0 []).entropy :=
  ⟨(capacity_invariant_all_runs 0 []).1, (capacity_invariant_all_runs 0 []).2.1⟩

end Adaptiva
